import Mathlib

/-!
# Tracing options of the gRPC OpenTracing middleware

A shallow embedding of `tracing/opentracing/options.go` (package
`grpc_opentracing`): the functional-options accumulator `evaluateOptions`
with its three option constructors, and the error classifier
`shouldMarkWithError`.

Modelling decisions.

* A Go pointer `*options` that may be `nil` is an `Option options`; the
  pointer returned by `evaluateOptions` is never `nil`, so that function
  returns an `options` value.
* An option `func(*options)` mutates the draft in place; here it is a
  function from the draft before to the draft after.
* A Go map `map[codes.Code]bool` is a finite map with unique keys and no
  order (`Finmap`); the `nil` map is `none`.
* Interface values (`opentracing.Tracer`, `error`) and function values
  (`FilterFunc`) may be `nil`; `nil` is `none` or a dedicated constructor.
* The two collaborators that live outside the package, the process-wide
  tracer `opentracing.GlobalTracer()` and the extractor
  `status.FromError`, are parameters of the functions that call them.
* For what the code writes and reads in shared state, the same functions are
  given a second time over an explicit memory (namespace `Mem`), where a map is
  an address and `defaultOptions` is a struct in memory; the two models are
  proved to agree.
-/

namespace grpc_opentracing

/-! ## Data model -/

/-- Go: `codes.Code`, a `uint32`. Codes are only compared and used as map
keys, never computed with, so a natural number stands for the value. -/
abbrev Code := Nat

namespace codes

/-- Go: `codes.OK`. -/
def OK : Code := 0

/-- Go: `codes.Unknown`. -/
def Unknown : Code := 2

/-- Go: `codes.NotFound`. -/
def NotFound : Code := 5

/-- Go: `codes.AlreadyExists`. -/
def AlreadyExists : Code := 6

/-- Go: `codes.Internal`. -/
def Internal : Code := 13

end codes

/-- Go: `context.Context`. The package hands it to the filter and never
looks inside; a handle identifies the value. -/
abbrev Context := Nat

/-- Go: `type FilterFunc func(ctx context.Context, fullMethodName string) bool`.
A function value may be `nil`, which is `none`. -/
abbrev FilterFunc := Option (Context → String → Bool)

/-- Go: `opentracing.Tracer`, an interface value: `nil` (`none`) or a tracer,
identified by a handle. -/
abbrev Tracer := Option Nat

/-- Go: a non-nil `map[codes.Code]bool`. -/
abbrev CodeMap := Finmap (fun _ : Code => Bool)

/-- Go: `type options struct`. `errorCodes` is `none` for the `nil` map. -/
structure options where
  filterOutFunc : FilterFunc
  tracer : Tracer
  errorCodes : Option CodeMap

/-- Go: `var defaultOptions = &options{filterOutFunc: nil, tracer: nil}`; the
field `errorCodes` is not listed and so holds the zero value, the `nil` map. -/
def defaultOptions : options :=
  { filterOutFunc := none, tracer := none, errorCodes := none }

/-- Go: `type Option func(*options)`, as a function from the draft before the
call to the draft after it. -/
abbrev OptionFunc := options → options

/-- Go: the index expression `m[c]` on a `map[codes.Code]bool`: the stored
value, or the zero value `false` when the map is `nil` or has no key `c`. -/
def index (m : Option CodeMap) (c : Code) : Bool :=
  match m with
  | none => false
  | some m => (m.lookup c).getD false

/-- Go: `len(o.errorCodes)`, the number of keys; `0` for the `nil` map. -/
def options.len (o : options) : Nat :=
  match o.errorCodes with
  | none => 0
  | some m => m.keys.card

/-- Go: `_, ok := o.errorCodes[c]`: whether `c` is a key of the map. -/
def options.hasKey (o : options) (c : Code) : Bool :=
  match o.errorCodes with
  | none => false
  | some m => decide (c ∈ m)

/-- The number of entries of the map whose key is `c`; `0` for the `nil` map. -/
def options.occurrences (o : options) (c : Code) : Nat :=
  match o.errorCodes with
  | none => 0
  | some m => (m.entries.map Sigma.fst).count c

/-- Membership of the whitelist, after the source comment on `errorCodes`:
"If true, this code will not mark the span as errored". The code `c` is
whitelisted when the map holds the key `c` with the value `true`. -/
def options.whitelisted (o : options) (c : Code) : Bool :=
  match o.errorCodes with
  | none => false
  | some m => m.lookup c == some true

/-! ## Option constructors -/

/-- Go: `WithFilterFunc(f)`: `o.filterOutFunc = f`. -/
def WithFilterFunc (f : FilterFunc) : OptionFunc :=
  fun o => { o with filterOutFunc := f }

/-- Go: `WithTracer(tracer)`: `o.tracer = tracer`. -/
def WithTracer (tracer : Tracer) : OptionFunc :=
  fun o => { o with tracer := tracer }

/-- One pass of the loop body of `WithWhitelistedErrorCodes`:
`if o.errorCodes == nil { o.errorCodes = map[codes.Code]bool{} }` followed by
`o.errorCodes[c] = true`. After the guard the map is not `nil`, so the
assignment always has a map to write to. -/
def whitelistStep (o : options) (c : Code) : options :=
  let o1 : options :=
    match o.errorCodes with
    | none => { o with errorCodes := some ∅ }
    | some _ => o
  { o1 with errorCodes := o1.errorCodes.map (fun m => m.insert c true) }

/-- Go: `WithWhitelistedErrorCodes(cs...)`: `for _, c := range cs { ... }`. -/
def WithWhitelistedErrorCodes (cs : List Code) : OptionFunc :=
  fun o => cs.foldl whitelistStep o

/-! ## Accumulator -/

/-- Go: `for _, o := range opts { o(optCopy) }`. -/
def applyOptions (opts : List OptionFunc) (optCopy : options) : options :=
  opts.foldl (fun acc o => o acc) optCopy

/-- Go: `evaluateOptions(opts)`. The draft starts as a copy of
`defaultOptions`, every option is applied in order, and a tracer that is still
`nil` is replaced by `opentracing.GlobalTracer()`, here the parameter
`GlobalTracer`. -/
def evaluateOptions (GlobalTracer : Tracer) (opts : List OptionFunc) : options :=
  let optCopy := applyOptions opts defaultOptions
  if optCopy.tracer = none then { optCopy with tracer := GlobalTracer } else optCopy

/-! ## Classifier -/

/-- Go: an `error` value, as far as status extraction can tell values apart:
`nil`, an error made by the gRPC status package (it carries a code), or any
other error. -/
inductive GoError where
  | nil
  | status (code : Code) (msg : String)
  | other (msg : String)

/-- Go: what the classifier reads of `stat, statusExists := status.FromError(err)`:
the pair of `stat.Code()` and `statusExists`. -/
abbrev Extractor := GoError → Code × Bool

/-- Go: `shouldMarkWithError(o, err)`. `FromError` stands for
`status.FromError`. -/
def shouldMarkWithError (FromError : Extractor) (o : Option options) (err : GoError) : Bool :=
  match o with
  | none => true
  | some o =>
    let r := FromError err
    let whitelisted := if r.2 then index o.errorCodes r.1 else false
    !whitelisted

/-- The extractor of the gRPC status package, `status.FromError`, which is
not part of this repository: a `nil` error gives code `OK` with `ok = true`,
a status error gives its code with `ok = true`, and any other error gives
`Unknown` with `ok = false`. The theorems below hold for every extractor;
this one serves to evaluate the classifier at concrete outcomes. -/
def statusFromError : Extractor
  | .nil => (codes.OK, true)
  | .status code _ => (code, true)
  | .other _ => (codes.Unknown, false)

/-! ## Sequences of constructor calls -/

/-- A call of one of the three exported constructors, with its argument. -/
inductive OptionCall where
  | filter (f : FilterFunc)
  | tracer (t : Tracer)
  | codes (cs : List Code)

/-- The option that a constructor call returns. -/
def OptionCall.build : OptionCall → OptionFunc
  | .filter f => WithFilterFunc f
  | .tracer t => WithTracer t
  | .codes cs => WithWhitelistedErrorCodes cs

/-- Whether the call is a `WithFilterFunc` call. -/
def OptionCall.isFilter : OptionCall → Bool
  | .filter _ => true
  | _ => false

/-- Whether the call is a `WithTracer` call. -/
def OptionCall.isTracer : OptionCall → Bool
  | .tracer _ => true
  | _ => false

/-! ## Sample values -/

/-- A draft whose whitelist holds `NotFound` and `AlreadyExists`. -/
def sampleOptions : options :=
  WithWhitelistedErrorCodes [codes.NotFound, codes.AlreadyExists] defaultOptions

/-- A filter that excludes the health-check method. -/
def sampleFilter : Context → String → Bool :=
  fun _ fullMethodName => fullMethodName != "/grpc.health.v1.Health/Check"

/-- Whether the call is a `WithWhitelistedErrorCodes` call with at least one
code. -/
def OptionCall.addsCode : OptionCall → Bool
  | .codes cs => !cs.isEmpty
  | _ => false

/-! ## The same code over process memory

A Go map is a reference and `defaultOptions` is a package-level variable, so
what `evaluateOptions` may write is only visible with memory made explicit.
Here a map value is an address into a heap of maps, the struct behind
`defaultOptions` is part of the memory, and an option receives the draft it
points to together with the memory. `view` reads a draft back as an `options`
value of the model above. -/

/-- Go: the `options` struct as it lies in memory: `errorCodes` holds a map
reference, `nil` (`none`) or the address of a map. -/
structure optionsCell where
  filterOutFunc : FilterFunc
  tracer : Tracer
  errorCodes : Option Nat

/-- The process memory the package can reach: the allocated maps (the address
of a map is its position), the struct behind the package-level pointer
`defaultOptions`, the tracer that `opentracing.GlobalTracer()` returns, and the
number of calls of `opentracing.GlobalTracer()` made so far. -/
structure Memory where
  maps : List CodeMap
  defaultOptions : optionsCell
  GlobalTracer : Tracer
  GlobalTracerCalls : Nat

/-- Go: `type Option func(*options)` over memory: the draft behind the pointer
and the memory before the call, to the same after it. -/
abbrev OptionProc := optionsCell × Memory → optionsCell × Memory

namespace Mem

/-- The memory when the package is loaded: no map allocated, the struct of
`var defaultOptions = &options{filterOutFunc: nil, tracer: nil}`, and no call
of `opentracing.GlobalTracer()` made. -/
def initial (GlobalTracer : Tracer) : Memory :=
  { maps := [],
    defaultOptions := { filterOutFunc := none, tracer := none, errorCodes := none },
    GlobalTracer := GlobalTracer,
    GlobalTracerCalls := 0 }

/-- Go: `WithFilterFunc(f)`: `o.filterOutFunc = f`. -/
def WithFilterFunc (f : FilterFunc) : OptionProc :=
  fun s => ({ s.1 with filterOutFunc := f }, s.2)

/-- Go: `WithTracer(tracer)`: `o.tracer = tracer`. -/
def WithTracer (tracer : Tracer) : OptionProc :=
  fun s => ({ s.1 with tracer := tracer }, s.2)

/-- One pass of the loop body of `WithWhitelistedErrorCodes`. The guard
`if o.errorCodes == nil { o.errorCodes = map[codes.Code]bool{} }` allocates an
empty map at a fresh address and stores the address in the draft;
`o.errorCodes[c] = true` then writes to the map at the address the draft
holds. -/
def whitelistStep (s : optionsCell × Memory) (c : Code) : optionsCell × Memory :=
  let s1 : optionsCell × Memory :=
    match s.1.errorCodes with
    | none =>
      ({ s.1 with errorCodes := some s.2.maps.length }, { s.2 with maps := s.2.maps ++ [∅] })
    | some _ => s
  match s1.1.errorCodes with
  | none => s1
  | some a =>
    (s1.1, { s1.2 with maps := s1.2.maps.set a ((s1.2.maps.getD a ∅).insert c true) })

/-- Go: `WithWhitelistedErrorCodes(cs...)`: `for _, c := range cs { ... }`. -/
def WithWhitelistedErrorCodes (cs : List Code) : OptionProc :=
  fun s => cs.foldl whitelistStep s

/-- Go: `for _, o := range opts { o(optCopy) }`. -/
def applyOptions (opts : List OptionProc) (s : optionsCell × Memory) : optionsCell × Memory :=
  opts.foldl (fun acc o => o acc) s

/-- Go: `evaluateOptions(opts)`. `*optCopy = *defaultOptions` copies the struct
field by field, so the draft starts with the same map reference as
`defaultOptions`; the tracer is looked up with `opentracing.GlobalTracer()`
only inside `if optCopy.tracer == nil`. Returns the finalized struct and the
memory after the call. -/
def evaluateOptions (opts : List OptionProc) (mem : Memory) : optionsCell × Memory :=
  let s := applyOptions opts (mem.defaultOptions, mem)
  if s.1.tracer = none then
    ({ s.1 with tracer := s.2.GlobalTracer },
      { s.2 with GlobalTracerCalls := s.2.GlobalTracerCalls + 1 })
  else s

/-- The `options` value that a struct in memory stands for: the map reference
is followed into the heap of maps. -/
def view (s : optionsCell × Memory) : options :=
  { filterOutFunc := s.1.filterOutFunc,
    tracer := s.1.tracer,
    errorCodes := s.1.errorCodes.map (fun a => s.2.maps.getD a ∅) }

/-- The option that a constructor call returns, over memory. -/
def build : OptionCall → OptionProc
  | .filter f => WithFilterFunc f
  | .tracer t => WithTracer t
  | .codes cs => WithWhitelistedErrorCodes cs

/-- The memory after a series of constructions, each a call of
`evaluateOptions` on a sequence of constructor calls; the returned structs are
dropped and the memory is passed on. -/
def constructions (runs : List (List OptionCall)) (mem : Memory) : Memory :=
  runs.foldl (fun m calls => (evaluateOptions (calls.map build) m).2) mem

/-- What the options of the three constructors keep true of a draft and the
memory while `evaluateOptions` runs, `mem` being the memory at its start: the
struct behind `defaultOptions`, the process-wide tracer and the count of its
lookups are as in `mem`, every map of `mem` is still there with its content,
and a map the draft refers to was allocated since. -/
def Frame (mem : Memory) (s : optionsCell × Memory) : Prop :=
  s.2.defaultOptions = mem.defaultOptions ∧
  s.2.GlobalTracer = mem.GlobalTracer ∧
  s.2.GlobalTracerCalls = mem.GlobalTracerCalls ∧
  mem.maps <+: s.2.maps ∧
  ∀ a, s.1.errorCodes = some a → mem.maps.length ≤ a ∧ a < s.2.maps.length

/-- A memory that the package never produces, for comparison: the struct
behind `defaultOptions` refers to an allocated map. -/
def sharedMapMemory : Memory :=
  { maps := [∅],
    defaultOptions := { filterOutFunc := none, tracer := none, errorCodes := some 0 },
    GlobalTracer := some 0,
    GlobalTracerCalls := 0 }

end Mem

/-! ## Frame lemmas for the constructors -/

theorem whitelistStep_filterOutFunc (o : options) (c : Code) :
    (whitelistStep o c).filterOutFunc = o.filterOutFunc := by
  cases h : o.errorCodes <;> simp [whitelistStep, h]

theorem whitelistStep_tracer (o : options) (c : Code) :
    (whitelistStep o c).tracer = o.tracer := by
  cases h : o.errorCodes <;> simp [whitelistStep, h]

theorem whitelistStep_errorCodes (o : options) (c : Code) :
    (whitelistStep o c).errorCodes = some ((o.errorCodes.getD ∅).insert c true) := by
  cases h : o.errorCodes <;> simp [whitelistStep, h]

theorem WithWhitelistedErrorCodes_filterOutFunc (cs : List Code) (o : options) :
    (WithWhitelistedErrorCodes cs o).filterOutFunc = o.filterOutFunc := by
  induction cs generalizing o with
  | nil => rfl
  | cons c cs ih =>
    have h := ih (whitelistStep o c)
    rw [whitelistStep_filterOutFunc] at h
    exact h

theorem WithWhitelistedErrorCodes_tracer (cs : List Code) (o : options) :
    (WithWhitelistedErrorCodes cs o).tracer = o.tracer := by
  induction cs generalizing o with
  | nil => rfl
  | cons c cs ih =>
    have h := ih (whitelistStep o c)
    rw [whitelistStep_tracer] at h
    exact h

theorem applyOptions_nil (o : options) : applyOptions [] o = o := rfl

theorem applyOptions_cons (f : OptionFunc) (opts : List OptionFunc) (o : options) :
    applyOptions (f :: opts) o = applyOptions opts (f o) := rfl

theorem applyOptions_append (xs ys : List OptionFunc) (o : options) :
    applyOptions (xs ++ ys) o = applyOptions ys (applyOptions xs o) := by
  simp [applyOptions, List.foldl_append]

theorem evaluateOptions_errorCodes (g : Tracer) (opts : List OptionFunc) :
    (evaluateOptions g opts).errorCodes = (applyOptions opts defaultOptions).errorCodes := by
  unfold evaluateOptions
  by_cases h : (applyOptions opts defaultOptions).tracer = none <;> simp [h]

theorem evaluateOptions_filterOutFunc (g : Tracer) (opts : List OptionFunc) :
    (evaluateOptions g opts).filterOutFunc = (applyOptions opts defaultOptions).filterOutFunc := by
  unfold evaluateOptions
  by_cases h : (applyOptions opts defaultOptions).tracer = none <;> simp [h]

theorem evaluateOptions_tracer (g : Tracer) (opts : List OptionFunc) :
    (evaluateOptions g opts).tracer =
      if (applyOptions opts defaultOptions).tracer = none then g
      else (applyOptions opts defaultOptions).tracer := by
  unfold evaluateOptions
  by_cases h : (applyOptions opts defaultOptions).tracer = none <;> simp [h]

/-! ## Membership lemmas for the whitelist -/

theorem index_eq_whitelisted (o : options) (c : Code) :
    index o.errorCodes c = o.whitelisted c := by
  unfold index options.whitelisted
  cases o.errorCodes with
  | none => rfl
  | some m =>
    cases h : m.lookup c with
    | none => simp [h]
    | some b => cases b <;> simp [h]

theorem whitelistStep_hasKey (o : options) (c k : Code) :
    (whitelistStep o c).hasKey k = true ↔ k = c ∨ o.hasKey k = true := by
  unfold options.hasKey
  rw [whitelistStep_errorCodes]
  cases o.errorCodes <;> simp [Finmap.mem_insert, Finmap.not_mem_empty]

theorem whitelistStep_whitelisted (o : options) (c k : Code) :
    (whitelistStep o c).whitelisted k = true ↔ k = c ∨ o.whitelisted k = true := by
  unfold options.whitelisted
  rw [whitelistStep_errorCodes]
  by_cases hk : k = c
  · subst hk
    simp [Finmap.lookup_insert]
  · cases o.errorCodes <;> simp [Finmap.lookup_insert_of_ne, hk]

theorem WithWhitelistedErrorCodes_hasKey (cs : List Code) (o : options) (k : Code) :
    (WithWhitelistedErrorCodes cs o).hasKey k = true ↔ k ∈ cs ∨ o.hasKey k = true := by
  induction cs generalizing o with
  | nil => simp [WithWhitelistedErrorCodes]
  | cons c cs ih =>
    have h := ih (whitelistStep o c)
    rw [whitelistStep_hasKey] at h
    simp only [WithWhitelistedErrorCodes, List.foldl_cons, List.mem_cons] at h ⊢
    rw [h]
    tauto

theorem WithWhitelistedErrorCodes_whitelisted (cs : List Code) (o : options) (k : Code) :
    (WithWhitelistedErrorCodes cs o).whitelisted k = true ↔ k ∈ cs ∨ o.whitelisted k = true := by
  induction cs generalizing o with
  | nil => simp [WithWhitelistedErrorCodes]
  | cons c cs ih =>
    have h := ih (whitelistStep o c)
    rw [whitelistStep_whitelisted] at h
    simp only [WithWhitelistedErrorCodes, List.foldl_cons, List.mem_cons] at h ⊢
    rw [h]
    tauto

theorem build_hasKey (call : OptionCall) (o : options) (k : Code) :
    (call.build o).hasKey k = true ↔ (∃ cs, call = .codes cs ∧ k ∈ cs) ∨ o.hasKey k = true := by
  cases call with
  | filter f => simp [OptionCall.build, WithFilterFunc, options.hasKey]
  | tracer t => simp [OptionCall.build, WithTracer, options.hasKey]
  | codes cs => simp [OptionCall.build, WithWhitelistedErrorCodes_hasKey]

theorem build_whitelisted (call : OptionCall) (o : options) (k : Code) :
    (call.build o).whitelisted k = true ↔
      (∃ cs, call = .codes cs ∧ k ∈ cs) ∨ o.whitelisted k = true := by
  cases call with
  | filter f => simp [OptionCall.build, WithFilterFunc, options.whitelisted]
  | tracer t => simp [OptionCall.build, WithTracer, options.whitelisted]
  | codes cs => simp [OptionCall.build, WithWhitelistedErrorCodes_whitelisted]

theorem applyOptions_hasKey (calls : List OptionCall) (o : options) (k : Code) :
    (applyOptions (calls.map OptionCall.build) o).hasKey k = true ↔
      (∃ cs, OptionCall.codes cs ∈ calls ∧ k ∈ cs) ∨ o.hasKey k = true := by
  induction calls generalizing o with
  | nil => simp [applyOptions]
  | cons call calls ih =>
    rw [List.map_cons, applyOptions_cons, ih, build_hasKey]
    constructor
    · rintro (⟨cs, hm, hk⟩ | ⟨cs, rfl, hk⟩ | h)
      · exact Or.inl ⟨cs, List.mem_cons_of_mem _ hm, hk⟩
      · exact Or.inl ⟨cs, List.mem_cons_self _ _, hk⟩
      · exact Or.inr h
    · rintro (⟨cs, hm, hk⟩ | h)
      · rcases List.mem_cons.mp hm with rfl | hm
        · exact Or.inr (Or.inl ⟨cs, rfl, hk⟩)
        · exact Or.inl ⟨cs, hm, hk⟩
      · exact Or.inr (Or.inr h)

theorem applyOptions_whitelisted (calls : List OptionCall) (o : options) (k : Code) :
    (applyOptions (calls.map OptionCall.build) o).whitelisted k = true ↔
      (∃ cs, OptionCall.codes cs ∈ calls ∧ k ∈ cs) ∨ o.whitelisted k = true := by
  induction calls generalizing o with
  | nil => simp [applyOptions]
  | cons call calls ih =>
    rw [List.map_cons, applyOptions_cons, ih, build_whitelisted]
    constructor
    · rintro (⟨cs, hm, hk⟩ | ⟨cs, rfl, hk⟩ | h)
      · exact Or.inl ⟨cs, List.mem_cons_of_mem _ hm, hk⟩
      · exact Or.inl ⟨cs, List.mem_cons_self _ _, hk⟩
      · exact Or.inr h
    · rintro (⟨cs, hm, hk⟩ | h)
      · rcases List.mem_cons.mp hm with rfl | hm
        · exact Or.inr (Or.inl ⟨cs, rfl, hk⟩)
        · exact Or.inl ⟨cs, hm, hk⟩
      · exact Or.inr (Or.inr h)

/-! ## Scalar fields along a sequence of calls -/

theorem build_tracer_of_not_isTracer (call : OptionCall) (o : options)
    (h : call.isTracer = false) : (call.build o).tracer = o.tracer := by
  cases call with
  | filter f => rfl
  | tracer t => simp [OptionCall.isTracer] at h
  | codes cs => exact WithWhitelistedErrorCodes_tracer cs o

theorem build_filterOutFunc_of_not_isFilter (call : OptionCall) (o : options)
    (h : call.isFilter = false) : (call.build o).filterOutFunc = o.filterOutFunc := by
  cases call with
  | filter f => simp [OptionCall.isFilter] at h
  | tracer t => rfl
  | codes cs => exact WithWhitelistedErrorCodes_filterOutFunc cs o

theorem applyOptions_tracer_of_not_isTracer (calls : List OptionCall) (o : options)
    (h : ∀ c ∈ calls, c.isTracer = false) :
    (applyOptions (calls.map OptionCall.build) o).tracer = o.tracer := by
  induction calls generalizing o with
  | nil => rfl
  | cons call calls ih =>
    rw [List.map_cons, applyOptions_cons,
      ih _ (fun c hc => h c (List.mem_cons_of_mem _ hc)),
      build_tracer_of_not_isTracer _ _ (h call (List.mem_cons_self _ _))]

theorem applyOptions_filterOutFunc_of_not_isFilter (calls : List OptionCall) (o : options)
    (h : ∀ c ∈ calls, c.isFilter = false) :
    (applyOptions (calls.map OptionCall.build) o).filterOutFunc = o.filterOutFunc := by
  induction calls generalizing o with
  | nil => rfl
  | cons call calls ih =>
    rw [List.map_cons, applyOptions_cons,
      ih _ (fun c hc => h c (List.mem_cons_of_mem _ hc)),
      build_filterOutFunc_of_not_isFilter _ _ (h call (List.mem_cons_self _ _))]

theorem applyOptions_tracer_last (pre post : List OptionCall) (t : Tracer) (o : options)
    (h : ∀ c ∈ post, c.isTracer = false) :
    (applyOptions ((pre ++ OptionCall.tracer t :: post).map OptionCall.build) o).tracer = t := by
  rw [List.map_append, applyOptions_append, List.map_cons, applyOptions_cons,
    applyOptions_tracer_of_not_isTracer post _ h]
  rfl

theorem applyOptions_filterOutFunc_last (pre post : List OptionCall) (f : FilterFunc)
    (o : options) (h : ∀ c ∈ post, c.isFilter = false) :
    (applyOptions ((pre ++ OptionCall.filter f :: post).map OptionCall.build) o).filterOutFunc
      = f := by
  rw [List.map_append, applyOptions_append, List.map_cons, applyOptions_cons,
    applyOptions_filterOutFunc_of_not_isFilter post _ h]
  rfl

/-! ## Size of the whitelist -/

theorem keys_insert (m : CodeMap) (c : Code) (b : Bool) :
    (m.insert c b).keys = insert c m.keys := by
  ext k
  simp [Finmap.mem_keys, Finmap.mem_insert]

theorem whitelistStep_len (o : options) (c : Code) :
    (whitelistStep o c).len = if o.hasKey c = true then o.len else o.len + 1 := by
  unfold options.len options.hasKey
  rw [whitelistStep_errorCodes]
  cases o.errorCodes with
  | none => simp [keys_insert]
  | some m =>
    by_cases hc : c ∈ m
    · simp [keys_insert, hc, Finset.card_insert_of_mem (Finmap.mem_keys.mpr hc)]
    · simp [keys_insert, hc,
        Finset.card_insert_of_not_mem (fun hk => hc (Finmap.mem_keys.mp hk))]

theorem whitelistStep_occurrences (o : options) (c : Code) :
    (whitelistStep o c).occurrences c = 1 := by
  unfold options.occurrences
  rw [whitelistStep_errorCodes]
  have hmem : c ∈ ((o.errorCodes.getD ∅).insert c true).keys :=
    Finmap.mem_keys.mpr (Finmap.mem_insert.mpr (Or.inl rfl))
  show Multiset.count c (Finmap.insert c true (o.errorCodes.getD ∅)).keys.val = 1
  exact Multiset.count_eq_one_of_mem (Finset.nodup _) hmem

theorem whitelistStep_idem (o : options) (c : Code) :
    whitelistStep (whitelistStep o c) c = whitelistStep o c := by
  cases h : o.errorCodes <;> simp [whitelistStep, h, Finmap.insert_insert]

/-! ## The classifier -/

/-- C1: for every non-nil options value and every outcome, the classifier
returns `false` exactly when the extractor reports a code (`ok`) and that code
is whitelisted, and `true` in every other case. With the whitelist
`NotFound`, `AlreadyExists`, an outcome with code `NotFound` gives `false` and
one with code `Internal` gives `true`. -/
theorem shouldMarkWithError_false_iff (FromError : Extractor) (o : options) (err : GoError) :
    (shouldMarkWithError FromError (some o) err = false ↔
        (FromError err).2 = true ∧ o.whitelisted (FromError err).1 = true) ∧
    (shouldMarkWithError FromError (some o) err = true ↔
        ¬ ((FromError err).2 = true ∧ o.whitelisted (FromError err).1 = true)) ∧
    shouldMarkWithError statusFromError (some sampleOptions)
        (.status codes.NotFound "not found") = false ∧
    shouldMarkWithError statusFromError (some sampleOptions)
        (.status codes.Internal "internal") = true := by
  refine ⟨?_, ?_, by decide, by decide⟩
  · simp only [shouldMarkWithError, index_eq_whitelisted]
    cases (FromError err).2 <;> simp
  · simp only [shouldMarkWithError, index_eq_whitelisted]
    cases (FromError err).2 <;> simp

/-- C2: end to end, for a sequence of constructor calls and an outcome
carrying the extractable code `c`, the classifier on the finalized options
returns `false` exactly when `c` was an argument of some
`WithWhitelistedErrorCodes` call of the sequence. -/
theorem shouldMarkWithError_evaluateOptions (g : Tracer) (FromError : Extractor)
    (calls : List OptionCall) (err : GoError) (c : Code) (h : FromError err = (c, true)) :
    shouldMarkWithError FromError
        (some (evaluateOptions g (calls.map OptionCall.build))) err = false ↔
      ∃ cs, OptionCall.codes cs ∈ calls ∧ c ∈ cs := by
  have hw := applyOptions_whitelisted calls defaultOptions c
  simp only [shouldMarkWithError, h, evaluateOptions_errorCodes]
  rw [index_eq_whitelisted]
  simp only [if_true, Bool.not_eq_false_eq_eq_true, Bool.not_eq_false, Bool.not_eq_eq_eq_not,
    Bool.not_false] at hw ⊢
  rw [hw]
  simp [options.whitelisted, defaultOptions]

/-- C2 at a concrete sequence: `NotFound` was supplied, and an outcome carrying
`NotFound` is not marked. -/
theorem shouldMarkWithError_evaluateOptions_witness :
    statusFromError (.status codes.NotFound "gone") = (codes.NotFound, true) ∧
    shouldMarkWithError statusFromError
        (some (evaluateOptions (some 0)
          ([OptionCall.tracer (some 1), OptionCall.codes [codes.NotFound],
            OptionCall.filter none].map OptionCall.build)))
        (.status codes.NotFound "gone") = false :=
  ⟨rfl, (shouldMarkWithError_evaluateOptions (some 0) statusFromError
    [OptionCall.tracer (some 1), OptionCall.codes [codes.NotFound], OptionCall.filter none]
    (.status codes.NotFound "gone") codes.NotFound rfl).mpr
      ⟨[codes.NotFound], List.mem_cons_of_mem _ (List.mem_cons_self _ _),
        List.mem_cons_self _ _⟩⟩

/-- C3: on a `nil` options pointer the classifier returns `true` for every
outcome, whatever the extractor reports for it. -/
theorem shouldMarkWithError_nil (FromError : Extractor) (err : GoError) :
    shouldMarkWithError FromError none err = true := rfl

/-- C4: for every options value (also `nil`, and whatever its whitelist) and
every outcome from which no code can be extracted (`ok = false`), the
classifier returns `true`, even when the code reported alongside `ok = false`
is whitelisted. -/
theorem shouldMarkWithError_no_status (FromError : Extractor) (o : Option options)
    (err : GoError) (h : (FromError err).2 = false) :
    shouldMarkWithError FromError o err = true := by
  cases o with
  | none => rfl
  | some o => simp [shouldMarkWithError, h]

/-- C4 at a concrete outcome: `Unknown` is whitelisted, the extractor reports
`Unknown` with `ok = false` for an error of another kind, and the outcome is
marked. -/
theorem shouldMarkWithError_no_status_witness :
    (statusFromError (.other "boom")).2 = false ∧
    (WithWhitelistedErrorCodes [codes.Unknown] defaultOptions).whitelisted
        (statusFromError (.other "boom")).1 = true ∧
    shouldMarkWithError statusFromError
        (some (WithWhitelistedErrorCodes [codes.Unknown] defaultOptions)) (.other "boom") = true :=
  ⟨rfl, by decide, shouldMarkWithError_no_status statusFromError
    (some (WithWhitelistedErrorCodes [codes.Unknown] defaultOptions)) (.other "boom") rfl⟩

/-! ## The accumulator -/

/-- C5: finalizing the empty sequence gives the process-wide default tracer,
no filter, and an empty whitelist (the map is `nil`, it has no key and
whitelists no code). -/
theorem evaluateOptions_nil (g : Tracer) :
    (evaluateOptions g []).tracer = g ∧
    (evaluateOptions g []).filterOutFunc = none ∧
    (evaluateOptions g []).errorCodes = none ∧
    (evaluateOptions g []).len = 0 ∧
    ∀ c, (evaluateOptions g []).hasKey c = false ∧
      (evaluateOptions g []).whitelisted c = false := by
  have h : evaluateOptions g [] = { defaultOptions with tracer := g } := by
    simp [evaluateOptions, applyOptions, defaultOptions]
  rw [h]
  simp [defaultOptions, options.len, options.hasKey, options.whitelisted]

/-- C6, as stated, fails: after `WithTracer(1)` the last `WithTracer` call
supplies the `nil` handle, and the finalized tracer is not that handle but the
process-wide default tracer, here `0`. -/
theorem WithTracer_nil_not_kept :
    (evaluateOptions (some 0)
        ([OptionCall.tracer (some 1), OptionCall.tracer none].map OptionCall.build)).tracer
      ≠ none ∧
    (evaluateOptions (some 0)
        ([OptionCall.tracer (some 1), OptionCall.tracer none].map OptionCall.build)).tracer
      = some 0 := by
  refine ⟨by decide, by decide⟩

/-- C6, amended: when the sequence holds a `WithTracer` call, the finalized
tracer is the handle of the last such call if that handle is not `nil`, and the
process-wide default tracer if it is `nil`. The sequence `WithTracer(T1)`,
`WithWhitelistedErrorCodes(NotFound)`, `WithTracer(T2)` finalizes with tracer
`T2` and the whitelist holding exactly `NotFound`. -/
theorem evaluateOptions_tracer_last (g : Tracer) (pre post : List OptionCall) (t : Tracer)
    (hpost : post.any OptionCall.isTracer = false) :
    (t ≠ none →
      (evaluateOptions g ((pre ++ OptionCall.tracer t :: post).map OptionCall.build)).tracer
        = t) ∧
    (t = none →
      (evaluateOptions g ((pre ++ OptionCall.tracer t :: post).map OptionCall.build)).tracer
        = g) ∧
    ∀ T1 T2 : Nat,
      (evaluateOptions g [WithTracer (some T1), WithWhitelistedErrorCodes [codes.NotFound],
          WithTracer (some T2)]).tracer = some T2 ∧
      (evaluateOptions g [WithTracer (some T1), WithWhitelistedErrorCodes [codes.NotFound],
          WithTracer (some T2)]).errorCodes = some (Finmap.singleton codes.NotFound true) := by
  have hpost' : ∀ c ∈ post, c.isTracer = false := by
    simpa [List.any_eq_false] using hpost
  refine ⟨fun ht => ?_, fun ht => ?_, fun T1 T2 => ⟨?_, ?_⟩⟩
  · rw [evaluateOptions_tracer, applyOptions_tracer_last pre post t _ hpost', if_neg ht]
  · rw [evaluateOptions_tracer, applyOptions_tracer_last pre post t _ hpost', if_pos ht]
  · rw [evaluateOptions_tracer]
    simp [applyOptions, WithTracer, WithWhitelistedErrorCodes, whitelistStep, defaultOptions]
  · rw [evaluateOptions_errorCodes]
    simp [applyOptions, WithTracer, WithWhitelistedErrorCodes, whitelistStep, defaultOptions]
    rfl

/-- C6, amended, at the sequence `WithTracer(1)`, `WithTracer(2)`,
`WithWhitelistedErrorCodes(NotFound)`, `WithFilterFunc(nil)`: the calls after
the last `WithTracer` leave the tracer `2` in place. -/
theorem evaluateOptions_tracer_last_witness :
    [OptionCall.codes [codes.NotFound], OptionCall.filter none].any OptionCall.isTracer
      = false ∧
    (evaluateOptions (some 0)
        (([OptionCall.tracer (some 1)] ++ OptionCall.tracer (some 2) ::
          [OptionCall.codes [codes.NotFound], OptionCall.filter none]).map
            OptionCall.build)).tracer = some 2 :=
  ⟨rfl, (evaluateOptions_tracer_last (some 0) [OptionCall.tracer (some 1)]
    [OptionCall.codes [codes.NotFound], OptionCall.filter none] (some 2) rfl).1 (by simp)⟩

/-- C7: when the sequence holds a `WithFilterFunc` call, the finalized filter
is the predicate of the last such call, also when that predicate is `nil`;
when the sequence holds no `WithFilterFunc` call, the filter is `nil`. -/
theorem evaluateOptions_filter_last (g : Tracer) (calls : List OptionCall) :
    (∀ pre f post, calls = pre ++ OptionCall.filter f :: post →
      post.any OptionCall.isFilter = false →
      (evaluateOptions g (calls.map OptionCall.build)).filterOutFunc = f) ∧
    (calls.any OptionCall.isFilter = false →
      (evaluateOptions g (calls.map OptionCall.build)).filterOutFunc = none) := by
  constructor
  · rintro pre f post rfl hpost
    have hpost' : ∀ c ∈ post, c.isFilter = false := by
      simpa [List.any_eq_false] using hpost
    rw [evaluateOptions_filterOutFunc, applyOptions_filterOutFunc_last pre post f _ hpost']
  · intro h
    have h' : ∀ c ∈ calls, c.isFilter = false := by
      simpa [List.any_eq_false] using h
    rw [evaluateOptions_filterOutFunc, applyOptions_filterOutFunc_of_not_isFilter calls _ h']
    rfl

/-- C7 at three concrete sequences: a predicate last, a `nil` predicate last,
and no `WithFilterFunc` call at all. -/
theorem evaluateOptions_filter_last_witness :
    (evaluateOptions (some 0)
        ([OptionCall.filter none, OptionCall.tracer (some 1),
          OptionCall.filter (some sampleFilter),
          OptionCall.codes [codes.NotFound]].map OptionCall.build)).filterOutFunc
      = some sampleFilter ∧
    (evaluateOptions (some 0)
        ([OptionCall.filter (some sampleFilter),
          OptionCall.filter none].map OptionCall.build)).filterOutFunc = none ∧
    (evaluateOptions (some 0)
        ([OptionCall.tracer (some 1),
          OptionCall.codes [codes.NotFound]].map OptionCall.build)).filterOutFunc = none :=
  ⟨(evaluateOptions_filter_last (some 0) _).1
      [OptionCall.filter none, OptionCall.tracer (some 1)] (some sampleFilter)
      [OptionCall.codes [codes.NotFound]] rfl rfl,
   (evaluateOptions_filter_last (some 0) _).1
      [OptionCall.filter (some sampleFilter)] none [] rfl rfl,
   (evaluateOptions_filter_last (some 0) _).2 rfl⟩

/-- C8: the finalized whitelist is the union of the arguments of all
`WithWhitelistedErrorCodes` calls: a code is a key of the finalized map, and
likewise is whitelisted, exactly when it was an argument of some such call. -/
theorem evaluateOptions_whitelist_union (g : Tracer) (calls : List OptionCall) (c : Code) :
    ((evaluateOptions g (calls.map OptionCall.build)).hasKey c = true ↔
      ∃ cs, OptionCall.codes cs ∈ calls ∧ c ∈ cs) ∧
    ((evaluateOptions g (calls.map OptionCall.build)).whitelisted c = true ↔
      ∃ cs, OptionCall.codes cs ∈ calls ∧ c ∈ cs) := by
  constructor
  · have h := applyOptions_hasKey calls defaultOptions c
    simp only [options.hasKey, evaluateOptions_errorCodes] at h ⊢
    rw [h]
    simp [defaultOptions]
  · have h := applyOptions_whitelisted calls defaultOptions c
    simp only [options.whitelisted, evaluateOptions_errorCodes] at h ⊢
    rw [h]
    simp [defaultOptions]

/-- C9: for every sequence of options, a tracer still `nil` after all options
were applied is resolved to the process-wide default tracer, and, the default
being a set handle, the finalized options never have a `nil` tracer. -/
theorem evaluateOptions_tracer_set (g : Tracer) (opts : List OptionFunc) (hg : g ≠ none) :
    (evaluateOptions g opts).tracer ≠ none ∧
    ((applyOptions opts defaultOptions).tracer = none → (evaluateOptions g opts).tracer = g) := by
  rw [evaluateOptions_tracer]
  by_cases h : (applyOptions opts defaultOptions).tracer = none
  · simp [h, hg]
  · simp [h]

/-- C9 at the sequence `WithTracer(1)`, `WithTracer(nil)` with the default
tracer `0`. -/
theorem evaluateOptions_tracer_set_witness :
    (some 0 : Tracer) ≠ none ∧
    (evaluateOptions (some 0) [WithTracer (some 1), WithTracer none]).tracer ≠ none ∧
    ((applyOptions [WithTracer (some 1), WithTracer none] defaultOptions).tracer = none →
      (evaluateOptions (some 0) [WithTracer (some 1), WithTracer none]).tracer = some 0) :=
  ⟨by simp, evaluateOptions_tracer_set (some 0) [WithTracer (some 1), WithTracer none] (by simp)⟩

/-- C10: whitelisting is idempotent. For every draft and code `c`, adding `c`
twice, in one call or in two, gives the same draft as adding it once; in that
draft `c` occurs exactly once and the map has grown by at most one entry
(size 1 from the default draft); and the classifier agrees on every outcome. -/
theorem WithWhitelistedErrorCodes_idempotent (o : options) (c : Code) :
    WithWhitelistedErrorCodes [c, c] o = WithWhitelistedErrorCodes [c] o ∧
    WithWhitelistedErrorCodes [c] (WithWhitelistedErrorCodes [c] o)
      = WithWhitelistedErrorCodes [c] o ∧
    (WithWhitelistedErrorCodes [c] o).occurrences c = 1 ∧
    (WithWhitelistedErrorCodes [c] o).len
      = (if o.hasKey c = true then o.len else o.len + 1) ∧
    (WithWhitelistedErrorCodes [c] o).len ≤ o.len + 1 ∧
    (WithWhitelistedErrorCodes [c, c] defaultOptions).len = 1 ∧
    (WithWhitelistedErrorCodes [c] (WithWhitelistedErrorCodes [c] defaultOptions)).len = 1 ∧
    (∀ (FromError : Extractor) (err : GoError),
      shouldMarkWithError FromError (some (WithWhitelistedErrorCodes [c, c] o)) err
        = shouldMarkWithError FromError (some (WithWhitelistedErrorCodes [c] o)) err) ∧
    (∀ (FromError : Extractor) (err : GoError),
      shouldMarkWithError FromError
          (some (WithWhitelistedErrorCodes [c] (WithWhitelistedErrorCodes [c] o))) err
        = shouldMarkWithError FromError (some (WithWhitelistedErrorCodes [c] o)) err) := by
  have h1 : WithWhitelistedErrorCodes [c, c] o = WithWhitelistedErrorCodes [c] o := by
    simp [WithWhitelistedErrorCodes, whitelistStep_idem]
  have h2 : WithWhitelistedErrorCodes [c] (WithWhitelistedErrorCodes [c] o)
      = WithWhitelistedErrorCodes [c] o := by
    simp [WithWhitelistedErrorCodes, whitelistStep_idem]
  have h3 : ∀ o : options, WithWhitelistedErrorCodes [c] o = whitelistStep o c := fun _ => rfl
  have hlen : (WithWhitelistedErrorCodes [c] o).len
      = (if o.hasKey c = true then o.len else o.len + 1) := by
    rw [h3, whitelistStep_len]
  have hd : (WithWhitelistedErrorCodes [c] defaultOptions).len = 1 := by
    rw [h3, whitelistStep_len]
    simp [options.hasKey, options.len, defaultOptions]
  refine ⟨h1, h2, ?_, hlen, ?_, ?_, ?_, fun _ _ => by rw [h1], fun _ _ => by rw [h2]⟩
  · rw [h3, whitelistStep_occurrences]
  · rw [hlen]
    split <;> omega
  · have h1d : WithWhitelistedErrorCodes [c, c] defaultOptions
        = WithWhitelistedErrorCodes [c] defaultOptions := by
      simp [WithWhitelistedErrorCodes, whitelistStep_idem]
    rw [h1d, hd]
  · have h2d : WithWhitelistedErrorCodes [c] (WithWhitelistedErrorCodes [c] defaultOptions)
        = WithWhitelistedErrorCodes [c] defaultOptions := by
      simp [WithWhitelistedErrorCodes, whitelistStep_idem]
    rw [h2d, hd]

/-! ## Invariants of reachable drafts -/

theorem hasKey_of_whitelisted (o : options) (k : Code) (h : o.whitelisted k = true) :
    o.hasKey k = true := by
  unfold options.whitelisted at h
  unfold options.hasKey
  cases hm : o.errorCodes with
  | none => simp [hm] at h
  | some m =>
    simp only [hm, beq_iff_eq] at h
    simpa using Finmap.mem_of_lookup_eq_some h

theorem applyOptions_hasKey_iff_whitelisted (calls : List OptionCall) (k : Code) :
    (applyOptions (calls.map OptionCall.build) defaultOptions).hasKey k = true ↔
      (applyOptions (calls.map OptionCall.build) defaultOptions).whitelisted k = true := by
  rw [applyOptions_hasKey, applyOptions_whitelisted]
  simp [options.hasKey, options.whitelisted, defaultOptions]

theorem WithWhitelistedErrorCodes_allocated (cs : List Code) (o : options)
    (h : o.errorCodes ≠ none → ∃ k, o.hasKey k = true) :
    (WithWhitelistedErrorCodes cs o).errorCodes ≠ none →
      ∃ k, (WithWhitelistedErrorCodes cs o).hasKey k = true := by
  induction cs generalizing o with
  | nil => exact h
  | cons c cs ih =>
    exact ih (whitelistStep o c)
      (fun _ => ⟨c, (whitelistStep_hasKey o c c).mpr (Or.inl rfl)⟩)

theorem build_allocated (call : OptionCall) (o : options)
    (h : o.errorCodes ≠ none → ∃ k, o.hasKey k = true) :
    (call.build o).errorCodes ≠ none → ∃ k, (call.build o).hasKey k = true := by
  cases call with
  | filter f => exact h
  | tracer t => exact h
  | codes cs => exact WithWhitelistedErrorCodes_allocated cs o h

theorem applyOptions_allocated (calls : List OptionCall) (o : options)
    (h : o.errorCodes ≠ none → ∃ k, o.hasKey k = true) :
    (applyOptions (calls.map OptionCall.build) o).errorCodes ≠ none →
      ∃ k, (applyOptions (calls.map OptionCall.build) o).hasKey k = true := by
  induction calls generalizing o with
  | nil => exact h
  | cons call calls ih =>
    rw [List.map_cons, applyOptions_cons]
    exact ih _ (build_allocated call o h)

theorem errorCodes_eq_of_hasKey_eq (o₁ o₂ : options)
    (a₁ : o₁.errorCodes ≠ none → ∃ k, o₁.hasKey k = true)
    (a₂ : o₂.errorCodes ≠ none → ∃ k, o₂.hasKey k = true)
    (t₁ : ∀ k, o₁.hasKey k = true → o₁.whitelisted k = true)
    (t₂ : ∀ k, o₂.hasKey k = true → o₂.whitelisted k = true)
    (hk : ∀ k, o₁.hasKey k = o₂.hasKey k) : o₁.errorCodes = o₂.errorCodes := by
  cases h₁ : o₁.errorCodes with
  | none =>
    cases h₂ : o₂.errorCodes with
    | none => rfl
    | some m₂ =>
      obtain ⟨k, hk₂⟩ := a₂ (by simp [h₂])
      rw [← hk k] at hk₂
      simp [options.hasKey, h₁] at hk₂
  | some m₁ =>
    cases h₂ : o₂.errorCodes with
    | none =>
      obtain ⟨k, hk₁⟩ := a₁ (by simp [h₁])
      rw [hk k] at hk₁
      simp [options.hasKey, h₂] at hk₁
    | some m₂ =>
      congr 1
      apply Finmap.ext_lookup
      intro k
      have e := hk k
      have w₁ := t₁ k
      have w₂ := t₂ k
      simp only [options.hasKey, options.whitelisted, h₁, h₂, decide_eq_true_eq,
        beq_iff_eq] at e w₁ w₂
      by_cases hm : k ∈ m₁
      · have hm₂ : k ∈ m₂ := by simpa [hm] using e
        rw [w₁ hm, w₂ hm₂]
      · have hm₂ : k ∉ m₂ := by simpa [hm] using e
        rw [Finmap.lookup_eq_none.mpr hm, Finmap.lookup_eq_none.mpr hm₂]

theorem applyOptions_errorCodes_of_not_addsCode (calls : List OptionCall) (o : options)
    (h : ∀ c ∈ calls, c.addsCode = false) :
    (applyOptions (calls.map OptionCall.build) o).errorCodes = o.errorCodes := by
  induction calls generalizing o with
  | nil => rfl
  | cons call calls ih =>
    rw [List.map_cons, applyOptions_cons, ih _ (fun c hc => h c (List.mem_cons_of_mem _ hc))]
    have hc := h call (List.mem_cons_self _ _)
    cases call with
    | filter f => rfl
    | tracer t => rfl
    | codes cs =>
      cases cs with
      | nil => rfl
      | cons c cs => simp [OptionCall.addsCode] at hc

/-! ## Monotonicity, order independence and frames -/

/-- C11: an option built by any of the three constructors never removes a code
from the whitelist of a draft (neither its key nor its value `true`), so a code
in the whitelist after a prefix of the sequence is in the finalized options. -/
theorem whitelist_monotone (call : OptionCall) (o : options) (k : Code) :
    (o.hasKey k = true → (call.build o).hasKey k = true) ∧
    (o.whitelisted k = true → (call.build o).whitelisted k = true) ∧
    (∀ (pre post : List OptionCall),
      (applyOptions (pre.map OptionCall.build) o).hasKey k = true →
      (applyOptions ((pre ++ post).map OptionCall.build) o).hasKey k = true) ∧
    (∀ (g : Tracer) (pre post : List OptionCall),
      (applyOptions (pre.map OptionCall.build) defaultOptions).whitelisted k = true →
      (evaluateOptions g ((pre ++ post).map OptionCall.build)).whitelisted k = true) := by
  refine ⟨fun h => (build_hasKey call o k).mpr (Or.inr h),
    fun h => (build_whitelisted call o k).mpr (Or.inr h), fun pre post h => ?_,
    fun g pre post h => ?_⟩
  · rw [List.map_append, applyOptions_append]
    exact (applyOptions_hasKey post _ k).mpr (Or.inr h)
  · have e : (evaluateOptions g ((pre ++ post).map OptionCall.build)).whitelisted k
        = (applyOptions ((pre ++ post).map OptionCall.build) defaultOptions).whitelisted k := by
      simp only [options.whitelisted, evaluateOptions_errorCodes]
    rw [e, List.map_append, applyOptions_append]
    exact (applyOptions_whitelisted post _ k).mpr (Or.inr h)

/-- C11 at concrete drafts: `WithTracer` keeps `NotFound` in the sample
whitelist, and `NotFound`, whitelisted by the first call, is still whitelisted
after two more calls and finalization. -/
theorem whitelist_monotone_witness :
    ((OptionCall.tracer (some 1)).build sampleOptions).whitelisted codes.NotFound = true ∧
    (evaluateOptions (some 0)
        (([OptionCall.codes [codes.NotFound]] ++
          [OptionCall.codes [codes.Internal], OptionCall.filter none]).map
            OptionCall.build)).whitelisted codes.NotFound = true :=
  ⟨(whitelist_monotone (OptionCall.tracer (some 1)) sampleOptions codes.NotFound).2.1
      (by decide),
   (whitelist_monotone (OptionCall.tracer (some 1)) sampleOptions codes.NotFound).2.2.2
      (some 0) [OptionCall.codes [codes.NotFound]]
      [OptionCall.codes [codes.Internal], OptionCall.filter none] (by decide)⟩

/-- C13: the whitelist does not depend on the order of the sequence. For a
sequence and any permutation of it the finalized maps have the same keys and
whitelist the same codes (they are the same map), and the classifier returns
the same result on every outcome. -/
theorem whitelist_perm (g g' : Tracer) (calls calls' : List OptionCall)
    (h : calls.Perm calls') :
    (∀ c, (evaluateOptions g (calls.map OptionCall.build)).hasKey c
        = (evaluateOptions g' (calls'.map OptionCall.build)).hasKey c) ∧
    (∀ c, (evaluateOptions g (calls.map OptionCall.build)).whitelisted c
        = (evaluateOptions g' (calls'.map OptionCall.build)).whitelisted c) ∧
    (evaluateOptions g (calls.map OptionCall.build)).errorCodes
        = (evaluateOptions g' (calls'.map OptionCall.build)).errorCodes ∧
    (∀ (FromError : Extractor) (err : GoError),
      shouldMarkWithError FromError (some (evaluateOptions g (calls.map OptionCall.build))) err
        = shouldMarkWithError FromError
            (some (evaluateOptions g' (calls'.map OptionCall.build))) err) := by
  have hk : ∀ c, (applyOptions (calls.map OptionCall.build) defaultOptions).hasKey c
      = (applyOptions (calls'.map OptionCall.build) defaultOptions).hasKey c := by
    intro c
    rw [Bool.eq_iff_iff, applyOptions_hasKey, applyOptions_hasKey]
    simp only [h.mem_iff]
  have hd : defaultOptions.errorCodes ≠ none → ∃ k, defaultOptions.hasKey k = true := by
    intro hne
    exact absurd rfl hne
  have he : (applyOptions (calls.map OptionCall.build) defaultOptions).errorCodes
      = (applyOptions (calls'.map OptionCall.build) defaultOptions).errorCodes :=
    errorCodes_eq_of_hasKey_eq _ _
      (applyOptions_allocated calls _ hd) (applyOptions_allocated calls' _ hd)
      (fun k => (applyOptions_hasKey_iff_whitelisted calls k).mp)
      (fun k => (applyOptions_hasKey_iff_whitelisted calls' k).mp) hk
  refine ⟨fun c => ?_, fun c => ?_, ?_, fun FromError err => ?_⟩
  · simp only [options.hasKey, evaluateOptions_errorCodes, he]
  · simp only [options.whitelisted, evaluateOptions_errorCodes, he]
  · simp only [evaluateOptions_errorCodes, he]
  · simp only [shouldMarkWithError, evaluateOptions_errorCodes, he]

/-- C13 at a concrete sequence with its first two calls swapped. -/
theorem whitelist_perm_witness :
    List.Perm
      [OptionCall.codes [codes.NotFound], OptionCall.tracer (some 1),
        OptionCall.codes [codes.Internal, codes.NotFound]]
      [OptionCall.tracer (some 1), OptionCall.codes [codes.NotFound],
        OptionCall.codes [codes.Internal, codes.NotFound]] ∧
    (evaluateOptions (some 0)
        ([OptionCall.codes [codes.NotFound], OptionCall.tracer (some 1),
          OptionCall.codes [codes.Internal, codes.NotFound]].map OptionCall.build)).errorCodes
      = (evaluateOptions (some 0)
        ([OptionCall.tracer (some 1), OptionCall.codes [codes.NotFound],
          OptionCall.codes [codes.Internal, codes.NotFound]].map
            OptionCall.build)).errorCodes :=
  ⟨List.Perm.swap _ _ _,
   (whitelist_perm (some 0) (some 0) _ _ (List.Perm.swap _ _ _)).2.2.1⟩

/-- C15: each constructor changes one field. `WithFilterFunc` leaves tracer
and whitelist as they are, `WithTracer` leaves filter and whitelist,
`WithWhitelistedErrorCodes` leaves filter and tracer and, given no code, the
whole draft; over memory, given no code, it allocates no map and writes
nothing. -/
theorem constructors_frame (o : options) (f : FilterFunc) (t : Tracer) (cs : List Code) :
    ((WithFilterFunc f o).filterOutFunc = f ∧ (WithFilterFunc f o).tracer = o.tracer ∧
      (WithFilterFunc f o).errorCodes = o.errorCodes) ∧
    ((WithTracer t o).tracer = t ∧ (WithTracer t o).filterOutFunc = o.filterOutFunc ∧
      (WithTracer t o).errorCodes = o.errorCodes) ∧
    ((WithWhitelistedErrorCodes cs o).filterOutFunc = o.filterOutFunc ∧
      (WithWhitelistedErrorCodes cs o).tracer = o.tracer) ∧
    WithWhitelistedErrorCodes [] o = o ∧
    (∀ s : optionsCell × Memory, Mem.WithWhitelistedErrorCodes [] s = s) ∧
    (∀ s : optionsCell × Memory, (Mem.WithFilterFunc f s).2 = s.2 ∧
      (Mem.WithTracer t s).2 = s.2) :=
  ⟨⟨rfl, rfl, rfl⟩, ⟨rfl, rfl, rfl⟩,
    ⟨WithWhitelistedErrorCodes_filterOutFunc cs o, WithWhitelistedErrorCodes_tracer cs o⟩,
    rfl, fun _ => rfl, fun _ => ⟨rfl, rfl⟩⟩

/-- C16: reading a `nil` or empty map is safe. For a non-nil options value
whose `errorCodes` is `nil` or empty the classifier returns `true` on every
outcome, and so it does for the options finalized from a sequence in which no
call adds a code. -/
theorem shouldMarkWithError_absent_whitelist (FromError : Extractor) (err : GoError) :
    (∀ o : options, o.errorCodes = none ∨ o.errorCodes = some ∅ →
      shouldMarkWithError FromError (some o) err = true) ∧
    (∀ (g : Tracer) (calls : List OptionCall), calls.any OptionCall.addsCode = false →
      (evaluateOptions g (calls.map OptionCall.build)).errorCodes = none ∧
      shouldMarkWithError FromError
        (some (evaluateOptions g (calls.map OptionCall.build))) err = true) := by
  have key : ∀ o : options, o.errorCodes = none ∨ o.errorCodes = some ∅ →
      shouldMarkWithError FromError (some o) err = true := by
    intro o ho
    rcases ho with ho | ho <;>
      cases hr : (FromError err).2 <;>
        simp [shouldMarkWithError, index, ho, hr, Finmap.lookup_empty]
  refine ⟨key, fun g calls hc => ?_⟩
  have hc' : ∀ c ∈ calls, c.addsCode = false := by
    simpa [List.any_eq_false] using hc
  have hn : (evaluateOptions g (calls.map OptionCall.build)).errorCodes = none := by
    rw [evaluateOptions_errorCodes, applyOptions_errorCodes_of_not_addsCode calls _ hc']
    rfl
  exact ⟨hn, key _ (Or.inl hn)⟩

/-- C16 at concrete values: an allocated but empty map, and a sequence whose
only `WithWhitelistedErrorCodes` call has no argument. -/
theorem shouldMarkWithError_absent_whitelist_witness :
    shouldMarkWithError statusFromError
        (some { filterOutFunc := none, tracer := some 1, errorCodes := some ∅ })
        (.status codes.NotFound "gone") = true ∧
    shouldMarkWithError statusFromError
        (some (evaluateOptions (some 0)
          ([OptionCall.codes [], OptionCall.tracer (some 1)].map OptionCall.build)))
        (.status codes.NotFound "gone") = true :=
  ⟨(shouldMarkWithError_absent_whitelist statusFromError (.status codes.NotFound "gone")).1
      { filterOutFunc := none, tracer := some 1, errorCodes := some ∅ } (Or.inr rfl),
   ((shouldMarkWithError_absent_whitelist statusFromError (.status codes.NotFound "gone")).2
      (some 0) [OptionCall.codes [], OptionCall.tracer (some 1)] rfl).2⟩

/-! ## The success outcome and the representation of the whitelist -/

/-- C17, as stated, fails: `status.FromError` reports `ok = true` with code
`OK` for the `nil` error, so with `OK` whitelisted the classifier returns
`false` on the success outcome. -/
theorem success_outcome_OK_whitelisted :
    statusFromError GoError.nil = (codes.OK, true) ∧
    (WithWhitelistedErrorCodes [codes.OK] defaultOptions).whitelisted codes.OK = true ∧
    shouldMarkWithError statusFromError
      (some (WithWhitelistedErrorCodes [codes.OK] defaultOptions)) GoError.nil = false := by
  refine ⟨rfl, by decide, by decide⟩

/-- C17, amended: for a non-nil options value the classifier returns `true` on
the `nil` error exactly when the extractor reports no code for it or the code
it reports is not whitelisted. With `status.FromError`, which reports `OK` for
the `nil` error, that is exactly when `OK` is not whitelisted. -/
theorem success_outcome_marked_iff (FromError : Extractor) (o : options) :
    (shouldMarkWithError FromError (some o) GoError.nil = true ↔
      ((FromError GoError.nil).2 = false ∨
        o.whitelisted (FromError GoError.nil).1 = false)) ∧
    (shouldMarkWithError statusFromError (some o) GoError.nil = true ↔
      o.whitelisted codes.OK = false) := by
  constructor
  · simp only [shouldMarkWithError, index_eq_whitelisted]
    cases (FromError GoError.nil).2 <;> simp
  · simp [shouldMarkWithError, index_eq_whitelisted, statusFromError]

/-- C18: in every draft reached from the default draft by options of the three
constructors, and in the finalized options, every key of `errorCodes` is
stored with `true`; the lookup `o.errorCodes[code]` is then the same as the
key being present, and the classifier returns `false` exactly when a code is
extracted and is a key of the map. -/
theorem reachable_keys_true (calls : List OptionCall) (k : Code) :
    (∀ m, (applyOptions (calls.map OptionCall.build) defaultOptions).errorCodes = some m →
      ∀ b, m.lookup k = some b → b = true) ∧
    index (applyOptions (calls.map OptionCall.build) defaultOptions).errorCodes k
      = (applyOptions (calls.map OptionCall.build) defaultOptions).hasKey k ∧
    (∀ g : Tracer,
      index (evaluateOptions g (calls.map OptionCall.build)).errorCodes k
        = (evaluateOptions g (calls.map OptionCall.build)).hasKey k) ∧
    (∀ (g : Tracer) (FromError : Extractor) (err : GoError), (FromError err).1 = k →
      (shouldMarkWithError FromError
          (some (evaluateOptions g (calls.map OptionCall.build))) err = false ↔
        (FromError err).2 = true ∧
          (evaluateOptions g (calls.map OptionCall.build)).hasKey k = true)) := by
  have hi : index (applyOptions (calls.map OptionCall.build) defaultOptions).errorCodes k
      = (applyOptions (calls.map OptionCall.build) defaultOptions).hasKey k := by
    rw [index_eq_whitelisted, Bool.eq_iff_iff]
    exact (applyOptions_hasKey_iff_whitelisted calls k).symm
  have hg : ∀ g : Tracer,
      index (evaluateOptions g (calls.map OptionCall.build)).errorCodes k
        = (evaluateOptions g (calls.map OptionCall.build)).hasKey k := by
    intro g
    simp only [options.hasKey, evaluateOptions_errorCodes] at hi ⊢
    exact hi
  refine ⟨fun m hm b hb => ?_, hi, hg, fun g FromError err hk => ?_⟩
  · have hw := (applyOptions_hasKey_iff_whitelisted calls k).mp
    simp only [options.hasKey, options.whitelisted, hm, decide_eq_true_eq, beq_iff_eq] at hw
    have := hw (Finmap.mem_of_lookup_eq_some hb)
    rw [hb] at this
    exact Option.some.inj this
  · subst hk
    rw [← hg g]
    simp only [shouldMarkWithError]
    cases (FromError err).2 <;> simp

/-- C18 at a concrete outcome: `NotFound` is a key of the finalized map, and an
outcome carrying `NotFound` is not marked. -/
theorem reachable_keys_true_witness :
    shouldMarkWithError statusFromError
      (some (evaluateOptions (some 0)
        ([OptionCall.codes [codes.NotFound, codes.Internal]].map OptionCall.build)))
      (.status codes.NotFound "gone") = false :=
  ((reachable_keys_true [OptionCall.codes [codes.NotFound, codes.Internal]]
      codes.NotFound).2.2.2 (some 0) statusFromError (.status codes.NotFound "gone") rfl).mpr
    ⟨rfl, by decide⟩

/-! ## Memory: frame and agreement with the value-level model -/

theorem Mem_whitelistStep_nil (cell : optionsCell) (m : Memory) (c : Code)
    (he : cell.errorCodes = none) :
    Mem.whitelistStep (cell, m) c =
      ({ cell with errorCodes := some m.maps.length },
        { m with maps := m.maps ++ [Finmap.insert c true ∅] }) := by
  have hset : (m.maps ++ [(∅ : CodeMap)]).set m.maps.length
      (Finmap.insert c true ((m.maps ++ [(∅ : CodeMap)]).getD m.maps.length ∅))
        = m.maps ++ [Finmap.insert c true ∅] := by
    rw [List.set_append_right _ _ (Nat.le_refl _)]
    simp [List.getD_eq_getElem?_getD]
  simp only [Mem.whitelistStep, he]
  rw [hset]

theorem Mem_whitelistStep_ref (cell : optionsCell) (m : Memory) (c : Code) (a : Nat)
    (he : cell.errorCodes = some a) :
    Mem.whitelistStep (cell, m) c =
      (cell, { m with maps := m.maps.set a (Finmap.insert c true (m.maps.getD a ∅)) }) := by
  simp only [Mem.whitelistStep, he]

theorem Mem_whitelistStep_spec (mem : Memory) (s : optionsCell × Memory) (c : Code)
    (h : Mem.Frame mem s) :
    Mem.Frame mem (Mem.whitelistStep s c) ∧
      Mem.view (Mem.whitelistStep s c) = whitelistStep (Mem.view s) c := by
  obtain ⟨cell, m⟩ := s
  obtain ⟨hd, hg, hn, ⟨rest, hp⟩, hv⟩ := h
  simp only at hd hg hn hp hv
  have hlen : mem.maps.length ≤ m.maps.length := by
    rw [← hp, List.length_append]
    omega
  cases he : cell.errorCodes with
  | none =>
    rw [Mem_whitelistStep_nil cell m c he]
    refine ⟨⟨hd, hg, hn, ⟨rest ++ [Finmap.insert c true ∅], ?_⟩, ?_⟩, ?_⟩
    · simp [← hp]
    · intro a ha
      simp only [Option.some.injEq] at ha
      subst ha
      simp [hlen]
    · simp [Mem.view, whitelistStep, he, List.getD_eq_getElem?_getD]
  | some a =>
    obtain ⟨ha₁, ha₂⟩ := hv a he
    rw [Mem_whitelistStep_ref cell m c a he]
    refine ⟨⟨hd, hg, hn, ⟨rest.set (a - mem.maps.length)
        (Finmap.insert c true (m.maps.getD a ∅)), ?_⟩, ?_⟩, ?_⟩
    · simp only
      rw [← hp, List.set_append_right _ _ ha₁]
    · intro b hb
      rw [he, Option.some.injEq] at hb
      subst hb
      simp [ha₁, ha₂]
    · simp [Mem.view, whitelistStep, he, List.getD_eq_getElem?_getD, ha₂]

theorem Mem_WithWhitelistedErrorCodes_spec (mem : Memory) (cs : List Code)
    (s : optionsCell × Memory) (h : Mem.Frame mem s) :
    Mem.Frame mem (Mem.WithWhitelistedErrorCodes cs s) ∧
      Mem.view (Mem.WithWhitelistedErrorCodes cs s)
        = WithWhitelistedErrorCodes cs (Mem.view s) := by
  induction cs generalizing s with
  | nil => exact ⟨h, rfl⟩
  | cons c cs ih =>
    obtain ⟨hf, hv⟩ := Mem_whitelistStep_spec mem s c h
    obtain ⟨hf', hv'⟩ := ih (Mem.whitelistStep s c) hf
    refine ⟨hf', ?_⟩
    simp only [Mem.WithWhitelistedErrorCodes, WithWhitelistedErrorCodes, List.foldl_cons]
      at hv' ⊢
    rw [hv', hv]

theorem Mem_build_spec (mem : Memory) (call : OptionCall) (s : optionsCell × Memory)
    (h : Mem.Frame mem s) :
    Mem.Frame mem (Mem.build call s) ∧ Mem.view (Mem.build call s) = call.build (Mem.view s) := by
  cases call with
  | filter f => exact ⟨h, rfl⟩
  | tracer t => exact ⟨h, rfl⟩
  | codes cs => exact Mem_WithWhitelistedErrorCodes_spec mem cs s h

theorem Mem_applyOptions_spec (mem : Memory) (calls : List OptionCall)
    (s : optionsCell × Memory) (h : Mem.Frame mem s) :
    Mem.Frame mem (Mem.applyOptions (calls.map Mem.build) s) ∧
      Mem.view (Mem.applyOptions (calls.map Mem.build) s)
        = applyOptions (calls.map OptionCall.build) (Mem.view s) := by
  induction calls generalizing s with
  | nil => exact ⟨h, rfl⟩
  | cons call calls ih =>
    obtain ⟨hf, hv⟩ := Mem_build_spec mem call s h
    obtain ⟨hf', hv'⟩ := ih (Mem.build call s) hf
    refine ⟨hf', ?_⟩
    simp only [Mem.applyOptions, applyOptions, List.map_cons, List.foldl_cons] at hv' ⊢
    rw [hv', hv]

theorem Mem_Frame_start (mem : Memory) (h : mem.defaultOptions.errorCodes = none) :
    Mem.Frame mem (mem.defaultOptions, mem) :=
  ⟨rfl, rfl, rfl, List.prefix_refl _, fun a ha => by simp [h] at ha⟩

theorem Mem_evaluateOptions_spec (mem : Memory) (calls : List OptionCall)
    (h : mem.defaultOptions = (Mem.initial mem.GlobalTracer).defaultOptions) :
    (Mem.evaluateOptions (calls.map Mem.build) mem).2.defaultOptions = mem.defaultOptions ∧
    (Mem.evaluateOptions (calls.map Mem.build) mem).2.GlobalTracer = mem.GlobalTracer ∧
    mem.maps <+: (Mem.evaluateOptions (calls.map Mem.build) mem).2.maps ∧
    (Mem.evaluateOptions (calls.map Mem.build) mem).2.GlobalTracerCalls
      = mem.GlobalTracerCalls +
        (if (applyOptions (calls.map OptionCall.build) defaultOptions).tracer = none
          then 1 else 0) ∧
    Mem.view (Mem.evaluateOptions (calls.map Mem.build) mem)
      = evaluateOptions mem.GlobalTracer (calls.map OptionCall.build) := by
  have hnil : mem.defaultOptions.errorCodes = none := by rw [h]; rfl
  have hview : Mem.view (mem.defaultOptions, mem) = defaultOptions := by
    simp [Mem.view, h, Mem.initial, defaultOptions]
  obtain ⟨⟨hd, hg, hn, hp, _⟩, hv⟩ :=
    Mem_applyOptions_spec mem calls (mem.defaultOptions, mem) (Mem_Frame_start mem hnil)
  rw [hview] at hv
  have ht : (Mem.applyOptions (calls.map Mem.build) (mem.defaultOptions, mem)).1.tracer
      = (applyOptions (calls.map OptionCall.build) defaultOptions).tracer := by
    rw [← hv]
    rfl
  unfold Mem.evaluateOptions evaluateOptions
  simp only [ht]
  by_cases hnone : (applyOptions (calls.map OptionCall.build) defaultOptions).tracer = none
  · simp only [hnone, if_true]
    refine ⟨hd, hg, hp, by rw [hn], ?_⟩
    rw [← hv]
    simp [Mem.view, hg]
  · simp only [hnone, if_false]
    exact ⟨hd, hg, hp, by rw [hn]; rfl, hv⟩

theorem Mem_constructions_defaultOptions (g : Tracer) (runs : List (List OptionCall)) :
    (Mem.constructions runs (Mem.initial g)).defaultOptions = (Mem.initial g).defaultOptions ∧
    (Mem.constructions runs (Mem.initial g)).GlobalTracer = g := by
  have key : ∀ (mem : Memory), mem.defaultOptions = (Mem.initial g).defaultOptions →
      mem.GlobalTracer = g →
      (Mem.constructions runs mem).defaultOptions = (Mem.initial g).defaultOptions ∧
      (Mem.constructions runs mem).GlobalTracer = g := by
    induction runs with
    | nil => exact fun mem hd hg => ⟨hd, hg⟩
    | cons calls runs ih =>
      intro mem hd hg
      have hs := Mem_evaluateOptions_spec mem calls (by rw [hd]; rfl)
      exact ih _ (hs.1.trans hd) (hs.2.1.trans hg)
  exact key _ rfl rfl

/-- Were the `errorCodes` of `defaultOptions` an allocated map, the struct copy
in `evaluateOptions` would share it and `WithWhitelistedErrorCodes` would write
to it: the whitelist seen through `defaultOptions` changes. The model tells
the two situations apart. -/
theorem Mem_shared_map_written :
    (Mem.view (Mem.sharedMapMemory.defaultOptions, Mem.sharedMapMemory)).whitelisted
        codes.NotFound = false ∧
    (Mem.view ((Mem.evaluateOptions [Mem.WithWhitelistedErrorCodes [codes.NotFound]]
        Mem.sharedMapMemory).2.defaultOptions,
      (Mem.evaluateOptions [Mem.WithWhitelistedErrorCodes [codes.NotFound]]
        Mem.sharedMapMemory).2)).whitelisted codes.NotFound = true := by
  refine ⟨by decide, by decide⟩

/-! ## Global state -/

/-- C12: `evaluateOptions` writes no global state. In the memory after any
series of constructions, and again after one more `evaluateOptions`, the
struct behind `defaultOptions` is as declared (filter `nil`, tracer `nil`,
map `nil`), the process-wide tracer is the same and every map allocated before
is unchanged; a later construction whitelists exactly the codes of its own
sequence, and a later construction on the empty sequence has a `nil` map. -/
theorem evaluateOptions_writes_no_global (g : Tracer) (runs : List (List OptionCall))
    (calls : List OptionCall) :
    (Mem.constructions runs (Mem.initial g)).defaultOptions
      = { filterOutFunc := none, tracer := none, errorCodes := none } ∧
    (Mem.evaluateOptions (calls.map Mem.build)
        (Mem.constructions runs (Mem.initial g))).2.defaultOptions
      = { filterOutFunc := none, tracer := none, errorCodes := none } ∧
    (Mem.evaluateOptions (calls.map Mem.build)
        (Mem.constructions runs (Mem.initial g))).2.GlobalTracer = g ∧
    (Mem.constructions runs (Mem.initial g)).maps <+:
      (Mem.evaluateOptions (calls.map Mem.build)
        (Mem.constructions runs (Mem.initial g))).2.maps ∧
    Mem.view (Mem.evaluateOptions (calls.map Mem.build)
        (Mem.constructions runs (Mem.initial g)))
      = evaluateOptions g (calls.map OptionCall.build) ∧
    (∀ (later : List OptionCall) (c : Code),
      (Mem.view (Mem.evaluateOptions (later.map Mem.build)
          (Mem.evaluateOptions (calls.map Mem.build)
            (Mem.constructions runs (Mem.initial g))).2)).whitelisted c = true ↔
        ∃ cs, OptionCall.codes cs ∈ later ∧ c ∈ cs) ∧
    (Mem.view (Mem.evaluateOptions []
        (Mem.evaluateOptions (calls.map Mem.build)
          (Mem.constructions runs (Mem.initial g))).2)).errorCodes = none := by
  obtain ⟨hd, hg⟩ := Mem_constructions_defaultOptions g runs
  have hs := Mem_evaluateOptions_spec (Mem.constructions runs (Mem.initial g)) calls
    (by rw [hd]; rfl)
  obtain ⟨hd', hg', hp, _, hv⟩ := hs
  rw [hg] at hv hg'
  have hafter : (Mem.evaluateOptions (calls.map Mem.build)
      (Mem.constructions runs (Mem.initial g))).2
        = Mem.constructions (runs ++ [calls]) (Mem.initial g) := by
    simp [Mem.constructions, List.foldl_append]
  have hlater : ∀ later : List OptionCall,
      Mem.view (Mem.evaluateOptions (later.map Mem.build)
          (Mem.evaluateOptions (calls.map Mem.build)
            (Mem.constructions runs (Mem.initial g))).2)
        = evaluateOptions g (later.map OptionCall.build) := by
    intro later
    rw [hafter]
    obtain ⟨hd₂, hg₂⟩ := Mem_constructions_defaultOptions g (runs ++ [calls])
    have h₂ := (Mem_evaluateOptions_spec (Mem.constructions (runs ++ [calls]) (Mem.initial g))
      later (by rw [hd₂]; rfl)).2.2.2.2
    rw [hg₂] at h₂
    exact h₂
  refine ⟨hd, hd'.trans hd, hg', hp, hv, fun later c => ?_, ?_⟩
  · rw [hlater later]
    have hw := applyOptions_whitelisted later defaultOptions c
    simp only [options.whitelisted, evaluateOptions_errorCodes] at hw ⊢
    rw [hw]
    simp [defaultOptions]
  · have h0 := hlater []
    simp only [List.map_nil] at h0
    rw [h0, evaluateOptions_errorCodes]
    rfl

/-- C14: the process-wide default tracer is only a fallback. When the tracer
field is set after all options were applied, `evaluateOptions` returns the
same options for any two default tracers and makes no call of
`opentracing.GlobalTracer()`; in general it makes one call exactly when the
field is still `nil`, and none otherwise. -/
theorem GlobalTracer_only_fallback (calls : List OptionCall) (g₁ g₂ : Tracer)
    (h : (applyOptions (calls.map OptionCall.build) defaultOptions).tracer ≠ none) :
    evaluateOptions g₁ (calls.map OptionCall.build)
      = evaluateOptions g₂ (calls.map OptionCall.build) ∧
    (∀ runs₁ runs₂ : List (List OptionCall),
      Mem.view (Mem.evaluateOptions (calls.map Mem.build)
          (Mem.constructions runs₁ (Mem.initial g₁)))
        = Mem.view (Mem.evaluateOptions (calls.map Mem.build)
          (Mem.constructions runs₂ (Mem.initial g₂)))) ∧
    (∀ runs : List (List OptionCall),
      (Mem.evaluateOptions (calls.map Mem.build)
          (Mem.constructions runs (Mem.initial g₁))).2.GlobalTracerCalls
        = (Mem.constructions runs (Mem.initial g₁)).GlobalTracerCalls) ∧
    (∀ (runs : List (List OptionCall)) (other : List OptionCall),
      (Mem.evaluateOptions (other.map Mem.build)
          (Mem.constructions runs (Mem.initial g₁))).2.GlobalTracerCalls
        = (Mem.constructions runs (Mem.initial g₁)).GlobalTracerCalls +
          (if (applyOptions (other.map OptionCall.build) defaultOptions).tracer = none
            then 1 else 0)) := by
  have hpure : ∀ g : Tracer, evaluateOptions g (calls.map OptionCall.build)
      = applyOptions (calls.map OptionCall.build) defaultOptions := by
    intro g
    simp [evaluateOptions, h]
  have hview : ∀ (g : Tracer) (runs : List (List OptionCall)) (cs : List OptionCall),
      Mem.view (Mem.evaluateOptions (cs.map Mem.build) (Mem.constructions runs (Mem.initial g)))
        = evaluateOptions g (cs.map OptionCall.build) ∧
      (Mem.evaluateOptions (cs.map Mem.build)
          (Mem.constructions runs (Mem.initial g))).2.GlobalTracerCalls
        = (Mem.constructions runs (Mem.initial g)).GlobalTracerCalls +
          (if (applyOptions (cs.map OptionCall.build) defaultOptions).tracer = none
            then 1 else 0) := by
    intro g runs cs
    obtain ⟨hd, hg⟩ := Mem_constructions_defaultOptions g runs
    obtain ⟨_, _, _, hn, hv⟩ := Mem_evaluateOptions_spec
      (Mem.constructions runs (Mem.initial g)) cs (by rw [hd]; rfl)
    rw [hg] at hv
    exact ⟨hv, hn⟩
  refine ⟨by rw [hpure g₁, hpure g₂], fun runs₁ runs₂ => ?_, fun runs => ?_,
    fun runs other => (hview g₁ runs other).2⟩
  · rw [(hview g₁ runs₁ calls).1, (hview g₂ runs₂ calls).1, hpure g₁, hpure g₂]
  · rw [(hview g₁ runs calls).2, if_neg h]
    rfl

/-- C14 at a concrete sequence that sets the tracer `1`, for the default
tracers `0` and `9`. -/
theorem GlobalTracer_only_fallback_witness :
    (applyOptions ([OptionCall.tracer (some 1), OptionCall.codes [codes.NotFound]].map
        OptionCall.build) defaultOptions).tracer ≠ none ∧
    evaluateOptions (some 0)
        ([OptionCall.tracer (some 1), OptionCall.codes [codes.NotFound]].map OptionCall.build)
      = evaluateOptions (some 9)
        ([OptionCall.tracer (some 1), OptionCall.codes [codes.NotFound]].map
          OptionCall.build) :=
  ⟨by decide, (GlobalTracer_only_fallback
    [OptionCall.tracer (some 1), OptionCall.codes [codes.NotFound]] (some 0) (some 9)
    (by decide)).1⟩

end grpc_opentracing
